import Mathlib

/-!
Verification development for the Fractals repository (`src/main.rs`).

The embedding models the core of the program: the 2x2 symmetry
(`Permutation`) algebra, the `Color` model with blending and export
quantization, the `Pattern` validator, and the `generate_fractal`
expansion algorithm.  Machine floats (`f32`) are modelled by exact
rationals; fallible array indexing (which panics in the source) is
modelled by `Option`-returning checked reads and writes, so a returned
`none` corresponds to an out-of-bounds access in the source, and the
while loop is run on a fuel parameter large enough to cover every
terminating execution of the source loop.
-/

namespace Fractals

/-- Mirrors `struct Color { r: f32, g: f32, b: f32, a: f32 }`; float channels
are modelled as exact rationals. -/
structure Color where
  r : ℚ
  g : ℚ
  b : ℚ
  a : ℚ
deriving DecidableEq

/-- Mirrors `struct Permutation { mapping: [(usize, usize); 4] }`. -/
structure Permutation where
  mapping : Fin 4 → ℕ × ℕ

instance : DecidableEq Permutation := fun p q =>
  decidable_of_iff (p.mapping = q.mapping) (by cases p; cases q; simp)

/-- Mirrors `struct Pixel { color: Color, perm: Permutation }`. -/
structure Pixel where
  color : Color
  perm : Permutation
deriving DecidableEq

/-- Mirrors `struct Pattern { pixels: [[Pixel; 2]; 2] }`. -/
structure Pattern where
  pixels : Fin 2 → Fin 2 → Pixel

instance : DecidableEq Pattern := fun p q =>
  decidable_of_iff (p.pixels = q.pixels) (by cases p; cases q; simp)

/-- `Permutation::identity`. -/
def Permutation.identity : Permutation := ⟨![(0, 0), (0, 1), (1, 0), (1, 1)]⟩

/-- `Permutation::rotate_90`. -/
def Permutation.rotate_90 : Permutation := ⟨![(0, 1), (1, 1), (0, 0), (1, 0)]⟩

/-- `Permutation::rotate_270`. -/
def Permutation.rotate_270 : Permutation := ⟨![(1, 0), (0, 0), (1, 1), (0, 1)]⟩

/-- `Permutation::flip_h`. -/
def Permutation.flip_h : Permutation := ⟨![(0, 1), (0, 0), (1, 1), (1, 0)]⟩

/-- `Permutation::flip_v`. -/
def Permutation.flip_v : Permutation := ⟨![(1, 0), (1, 1), (0, 0), (0, 1)]⟩

/-- The flattened cell index `y * 2 + x` used by `Permutation::compose`. -/
def flatIdx (m : ℕ × ℕ) : ℕ := m.1 * 2 + m.2

/-- One loop step of `Permutation::compose`: `result[i] = other.mapping[idx]`,
where indexing `other.mapping` with `idx >= 4` panics (modelled by `none`). -/
def composeEntry (self other : Permutation) (i : Fin 4) : Option (ℕ × ℕ) :=
  if h : flatIdx (self.mapping i) < 4 then
    some (other.mapping ⟨flatIdx (self.mapping i), h⟩)
  else none

/-- `Permutation::compose`, with the four loop steps unrolled. -/
def Permutation.compose (self other : Permutation) : Option Permutation :=
  (composeEntry self other 0).bind fun e0 =>
  (composeEntry self other 1).bind fun e1 =>
  (composeEntry self other 2).bind fun e2 =>
  (composeEntry self other 3).bind fun e3 =>
  some ⟨![e0, e1, e2, e3]⟩

/-- A 2x2 grid of values, the `[[T; 2]; 2]` arrays of the source. -/
def Grid2 (α : Type u) : Type u := Fin 2 → Fin 2 → α

instance [DecidableEq α] : DecidableEq (Grid2 α) := by
  unfold Grid2; infer_instance

/-- Overwrite one cell of a 2x2 grid. -/
def update2 (g : Grid2 α) (y x : Fin 2) (v : α) : Grid2 α :=
  fun Y X => if Y = y ∧ X = x then v else g Y X

/-- Checked write into a 2x2 grid at possibly out-of-range coordinates;
`none` models the index panic of the source. -/
def write2 (g : Grid2 α) (y x : ℕ) (v : α) : Option (Grid2 α) :=
  if h : y < 2 ∧ x < 2 then some (update2 g ⟨y, h.1⟩ ⟨x, h.2⟩ v) else none

/-- `Permutation::apply`: `result` starts as `[[grid[0][0]; 2]; 2]` and each
source cell `i` (source coordinates `(i / 2, i % 2)`) is written to
destination `mapping[i]`; the four loop steps are unrolled. -/
def Permutation.apply (p : Permutation) (g : Grid2 α) : Option (Grid2 α) :=
  (write2 (fun _ _ => g 0 0) (p.mapping 0).1 (p.mapping 0).2 (g 0 0)).bind fun r0 =>
  (write2 r0 (p.mapping 1).1 (p.mapping 1).2 (g 0 1)).bind fun r1 =>
  (write2 r1 (p.mapping 2).1 (p.mapping 2).2 (g 1 0)).bind fun r2 =>
  write2 r2 (p.mapping 3).1 (p.mapping 3).2 (g 1 1)

/-- All destination coordinates of the mapping are inside the 2x2 grid. -/
def Permutation.InRange (p : Permutation) : Prop :=
  ∀ i : Fin 4, (p.mapping i).1 < 2 ∧ (p.mapping i).2 < 2

instance (p : Permutation) : Decidable p.InRange := by
  unfold Permutation.InRange; infer_instance

/-- The mapping is a valid bijection on the four cells: destinations are in
range and no two source cells share a destination. -/
def Permutation.IsBijection (p : Permutation) : Prop :=
  p.InRange ∧ Function.Injective p.mapping

instance (p : Permutation) : Decidable p.IsBijection := by
  unfold Permutation.IsBijection Function.Injective; infer_instance

/-- Total version of `Permutation.compose`; agrees with it on in-range
inputs (`compose_eq_total`). -/
def composeT (self other : Permutation) : Permutation :=
  ⟨fun i => other.mapping ⟨flatIdx (self.mapping i) % 4, Nat.mod_lt _ (by omega)⟩⟩

/-- Unchecked write into a 2x2 grid, ignoring out-of-range coordinates;
agrees with `write2` on in-range coordinates. -/
def writeT (g : Grid2 α) (y x : ℕ) (v : α) : Grid2 α :=
  if h : y < 2 ∧ x < 2 then update2 g ⟨y, h.1⟩ ⟨x, h.2⟩ v else g

/-- Total version of `Permutation.apply`; agrees with it on in-range
mappings (`apply_eq_total`). -/
def applyT (p : Permutation) (g : Grid2 α) : Grid2 α :=
  writeT (writeT (writeT (writeT (fun _ _ => g 0 0)
    (p.mapping 0).1 (p.mapping 0).2 (g 0 0))
    (p.mapping 1).1 (p.mapping 1).2 (g 0 1))
    (p.mapping 2).1 (p.mapping 2).2 (g 1 0))
    (p.mapping 3).1 (p.mapping 3).2 (g 1 1)

/-- `Color::lerp`: per-channel linear interpolation `a + (b - a) * t`. -/
def Color.lerp (self other : Color) (t : ℚ) : Color :=
  ⟨self.r + (other.r - self.r) * t,
   self.g + (other.g - self.g) * t,
   self.b + (other.b - self.b) * t,
   self.a + (other.a - self.a) * t⟩

/-- The `as u8` cast applied to a scaled channel: truncation toward zero,
saturating into `[0, 255]`. -/
def toByte (q : ℚ) : ℕ := if q < 0 then 0 else min 255 (Int.toNat ⌊q⌋)

/-- `Color::to_rgba`: each channel scaled by 255 and cast to `u8`. -/
def Color.to_rgba (c : Color) : List ℕ :=
  [toByte (c.r * 255), toByte (c.g * 255), toByte (c.b * 255), toByte (c.a * 255)]

/-- `create_base_pattern` (float literals 0.2, 0.4, 0.6 as exact rationals). -/
def create_base_pattern : Pattern :=
  ⟨![![⟨⟨mkRat 1 5, mkRat 2 5, mkRat 3 5, 1⟩, Permutation.rotate_90⟩,
        ⟨⟨mkRat 3 5, mkRat 2 5, mkRat 1 5, 1⟩, Permutation.flip_h⟩],
     ![⟨⟨0, 0, 0, 1⟩, Permutation.flip_v⟩, ⟨⟨0, 0, 0, 0⟩, Permutation.identity⟩]]⟩

/-- The mutable `Vec<Vec<Pixel>>` buffer, as a total function plus a side
length against which every access is checked. -/
def GridN (α : Type u) : Type u := ℕ → ℕ → α

/-- Overwrite one cell of a buffer. -/
def updN (g : GridN α) (y x : ℕ) (v : α) : GridN α :=
  fun Y X => if Y = y ∧ X = x then v else g Y X

/-- Checked read `g[y][x]` from a buffer of side `n` (`none` = index panic). -/
def readC (n : ℕ) (g : GridN α) (y x : ℕ) : Option α :=
  if y < n ∧ x < n then some (g y x) else none

/-- Checked write `g[y][x] = v` into a buffer of side `n` (`none` = index panic). -/
def writeC (n : ℕ) (g : GridN α) (y x : ℕ) (v : α) : Option (GridN α) :=
  if y < n ∧ x < n then some (updN g y x v) else none

/-- The fill value of the initial buffer: transparent black, identity symmetry. -/
def initPixel : Pixel := ⟨⟨0, 0, 0, 0⟩, Permutation.identity⟩

/-- `Color { a: 1.0, ..pixel.color }`. -/
def opq (c : Color) : Color := ⟨c.r, c.g, c.b, 1⟩

/-- `blend_factor = 1.0 - (1.0 - blend) * alpha`. -/
def bfac (blend alpha : ℚ) : ℚ := 1 - (1 - blend) * alpha

/-- The body of the inner `for x` loop of `generate_fractal`: read the cell,
permute the base pattern by its symmetry, and write the four blended
sub-pixels of the `2x2` destination block, in `(dy, dx)` order.  The new
symmetry is produced by the parameter `np` (in the source: compose, or
identity on the final level). -/
def processCell (n : ℕ) (pat : Pattern) (np : Permutation → Permutation → Option Permutation)
    (blend : ℚ) (g : GridN Pixel) (y x : ℕ) : Option (GridN Pixel) :=
  (readC n g y x).bind fun pixel =>
  (pixel.perm.apply pat.pixels).bind fun pb =>
  (np pixel.perm (pb 0 0).perm).bind fun np00 =>
  (writeC n g (y * 2) (x * 2)
    ⟨(opq pixel.color).lerp (pb 0 0).color (bfac blend pixel.color.a), np00⟩).bind fun h00 =>
  (np pixel.perm (pb 0 1).perm).bind fun np01 =>
  (writeC n h00 (y * 2) (x * 2 + 1)
    ⟨(opq pixel.color).lerp (pb 0 1).color (bfac blend pixel.color.a), np01⟩).bind fun h01 =>
  (np pixel.perm (pb 1 0).perm).bind fun np10 =>
  (writeC n h01 (y * 2 + 1) (x * 2)
    ⟨(opq pixel.color).lerp (pb 1 0).color (bfac blend pixel.color.a), np10⟩).bind fun h10 =>
  (np pixel.perm (pb 1 1).perm).bind fun np11 =>
  writeC n h10 (y * 2 + 1) (x * 2 + 1)
    ⟨(opq pixel.color).lerp (pb 1 1).color (bfac blend pixel.color.a), np11⟩

/-- The `for x in (0..current_size).rev()` loop over one row. -/
def rowSweep (n : ℕ) (pat : Pattern) (np : Permutation → Permutation → Option Permutation)
    (blend : ℚ) (cs : ℕ) (y : ℕ) (g : GridN Pixel) : Option (GridN Pixel) :=
  (List.range cs).reverse.foldlM (fun h x => processCell n pat np blend h y x) g

/-- The `for y in (0..current_size).rev()` loop: one full expansion sweep. -/
def sweep (n : ℕ) (pat : Pattern) (np : Permutation → Permutation → Option Permutation)
    (blend : ℚ) (cs : ℕ) (g : GridN Pixel) : Option (GridN Pixel) :=
  (List.range cs).reverse.foldlM (fun h y => rowSweep n pat np blend cs y h) g

/-- The `while current_size < final_size` loop, run on fuel: `blend` is
multiplied by `decay` at the top of each iteration and `current_size`
doubles after each sweep.  Fuel exhaustion with the guard still true
returns `none`; callers supply fuel covering all iterations. -/
def expandLoop (n : ℕ) (pat : Pattern) (decay : ℚ)
    (np : ℕ → Permutation → Permutation → Option Permutation) :
    ℕ → ℕ → ℚ → GridN Pixel → Option (GridN Pixel)
  | 0, cs, _blend, g => if cs < n then none else some g
  | fuel + 1, cs, blend, g =>
    if cs < n then
      (sweep n pat (np cs) (blend * decay) cs g).bind
        (expandLoop n pat decay np fuel (cs * 2) (blend * decay))
    else some g

/-- The source's choice of new symmetry: composed, unless this step reaches
the final resolution, in which case identity. -/
def npSrc (n cs : ℕ) (p q : Permutation) : Option Permutation :=
  if cs * 2 < n then p.compose q else some Permutation.identity

/-- The final color extraction: `result.into_iter().map(|row| ... color)`. -/
def extract (n : ℕ) (g : GridN Pixel) : List (List Color) :=
  (List.range n).map fun y => (List.range n).map fun x => (g y x).color

/-- `generate_fractal`: seed the top-left 2x2 region of a `2^iterations`
buffer with the pattern, expand while `current_size < final_size`, then
extract colors.  `none` models an index panic in the source. -/
def generate_fractal (iterations : ℕ) (pattern : Pattern) (decay : ℚ) :
    Option (List (List Color)) :=
  (writeC (2 ^ iterations) (fun _ _ => initPixel) 0 0 (pattern.pixels 0 0)).bind fun g1 =>
  (writeC (2 ^ iterations) g1 0 1 (pattern.pixels 0 1)).bind fun g2 =>
  (writeC (2 ^ iterations) g2 1 0 (pattern.pixels 1 0)).bind fun g3 =>
  (writeC (2 ^ iterations) g3 1 1 (pattern.pixels 1 1)).bind fun g4 =>
  (expandLoop (2 ^ iterations) pattern decay (npSrc (2 ^ iterations))
    iterations 2 1 g4).map (extract (2 ^ iterations))

/-- Variant new-symmetry choice for claim C8: always store the composed
symmetry, also on the final level. -/
def npVar (_cs : ℕ) (p q : Permutation) : Option Permutation := p.compose q

/-- The C8 variant of `generate_fractal`: identical except that the final
expansion step stores composed symmetries instead of resetting to identity. -/
def generate_fractal_composeAll (iterations : ℕ) (pattern : Pattern) (decay : ℚ) :
    Option (List (List Color)) :=
  (writeC (2 ^ iterations) (fun _ _ => initPixel) 0 0 (pattern.pixels 0 0)).bind fun g1 =>
  (writeC (2 ^ iterations) g1 0 1 (pattern.pixels 0 1)).bind fun g2 =>
  (writeC (2 ^ iterations) g2 1 0 (pattern.pixels 1 0)).bind fun g3 =>
  (writeC (2 ^ iterations) g3 1 1 (pattern.pixels 1 1)).bind fun g4 =>
  (expandLoop (2 ^ iterations) pattern decay npVar
    iterations 2 1 g4).map (extract (2 ^ iterations))

/-- Total counterpart of `npSrc`, used by the functional characterization. -/
def npSrcT (n cs : ℕ) (p q : Permutation) : Permutation :=
  if cs * 2 < n then composeT p q else Permutation.identity

/-- Total counterpart of `npVar`. -/
def npVarT (_cs : ℕ) (p q : Permutation) : Permutation := composeT p q

/-- The child pixel written for a parent pixel at sub-offset `(d, e)`:
blended color and the new symmetry chosen by `npT`. -/
def childPixel (pat : Pattern) (npT : Permutation → Permutation → Permutation)
    (blend : ℚ) (parent : Pixel) (d e : Fin 2) : Pixel :=
  ⟨(opq parent.color).lerp (applyT parent.perm pat.pixels d e).color
      (bfac blend parent.color.a),
   npT parent.perm (applyT parent.perm pat.pixels d e).perm⟩

/-- One functional expansion level: the child at `(Y, X)` is computed from
the parent cell `(Y / 2, X / 2)` of the previous grid. -/
def stepF (pat : Pattern) (npT : Permutation → Permutation → Permutation)
    (blend : ℚ) (g : GridN Pixel) : GridN Pixel :=
  fun Y X =>
    childPixel pat npT blend (g (Y / 2) (X / 2))
      ⟨Y % 2, Nat.mod_lt _ (by omega)⟩ ⟨X % 2, Nat.mod_lt _ (by omega)⟩

/-- Overlay of a freshly expanded `cs*2` region on the old buffer. -/
def maskF (cs : ℕ) (new old : GridN Pixel) : GridN Pixel :=
  fun Y X => if Y < cs * 2 ∧ X < cs * 2 then new Y X else old Y X

/-- Functional (total) counterpart of `expandLoop`. -/
def expandF (n : ℕ) (pat : Pattern) (decay : ℚ)
    (npT : ℕ → Permutation → Permutation → Permutation) :
    ℕ → ℕ → ℚ → GridN Pixel → GridN Pixel
  | 0, _cs, _blend, g => g
  | fuel + 1, cs, blend, g =>
    if cs < n then
      expandF n pat decay npT fuel (cs * 2) (blend * decay)
        (maskF cs (stepF pat (npT cs) (blend * decay) g) g)
    else g

/-- The buffer after the seeding writes of `generate_fractal`. -/
def seedGrid (pat : Pattern) : GridN Pixel :=
  updN (updN (updN (updN (fun _ _ => initPixel) 0 0 (pat.pixels 0 0))
    0 1 (pat.pixels 0 1)) 1 0 (pat.pixels 1 0)) 1 1 (pat.pixels 1 1)

/-- Every cell of the buffer carries an in-range symmetry. -/
def PermsOk (g : GridN Pixel) : Prop := ∀ Y X, (g Y X).perm.InRange

/-- Intermediate state of an in-place sweep: rows of parents `>= y` are fully
expanded, and in the parent row `y` the columns `>= x` are expanded. -/
def partGrid (cs : ℕ) (F old : GridN Pixel) (y x : ℕ) : GridN Pixel :=
  fun Y X =>
    if Y < cs * 2 ∧ X < cs * 2 ∧ y * 2 ≤ Y ∧ (y * 2 + 2 ≤ Y ∨ x * 2 ≤ X) then F Y X
    else old Y X

/-- The double-buffered reference expansion step described by the
specification for claim C3: every cell `(Y, X)` of a fresh buffer of side
`cs * 2` is computed by reading the parent cell `(Y / 2, X / 2)` from the
previous level's buffer — blended color, and composed symmetry unless this
step produces the final resolution. -/
def dbStep (n : ℕ) (pat : Pattern) (cs : ℕ) (blend : ℚ) (old : GridN Pixel) : GridN Pixel :=
  fun Y X =>
    ⟨(opq (old (Y / 2) (X / 2)).color).lerp
        (applyT (old (Y / 2) (X / 2)).perm pat.pixels
          ⟨Y % 2, Nat.mod_lt _ (by omega)⟩ ⟨X % 2, Nat.mod_lt _ (by omega)⟩).color
        (bfac blend (old (Y / 2) (X / 2)).color.a),
     if cs * 2 < n then
       composeT (old (Y / 2) (X / 2)).perm
         (applyT (old (Y / 2) (X / 2)).perm pat.pixels
           ⟨Y % 2, Nat.mod_lt _ (by omega)⟩ ⟨X % 2, Nat.mod_lt _ (by omega)⟩).perm
     else Permutation.identity⟩

/-- Double-buffered reference expansion: each level reads the whole previous
buffer and writes a fresh one. -/
def dbExpand (n : ℕ) (pat : Pattern) (decay : ℚ) :
    ℕ → ℕ → ℚ → GridN Pixel → GridN Pixel
  | 0, _cs, _blend, g => g
  | fuel + 1, cs, blend, g =>
    if cs < n then
      dbExpand n pat decay fuel (cs * 2) (blend * decay) (dbStep n pat cs (blend * decay) g)
    else g

/-- The double-buffered reference generator of the specification. -/
def generateDB (iterations : ℕ) (pat : Pattern) (decay : ℚ) : List (List Color) :=
  extract (2 ^ iterations) (dbExpand (2 ^ iterations) pat decay iterations 2 1 (seedGrid pat))

/-- The seed pattern's own colors permuted by the symmetry of seed cell
`(y, x)`, read at offset `(dy, dx)` (for claim C5). -/
def seedQuadColor (pat : Pattern) (y x dy dx : Fin 2) : Color :=
  applyT (pat.pixels y x).perm (fun a b => (pat.pixels a b).color) dy dx

/-- Mirrors `enum PatternError` (IO and JSON payloads of the two external
variants omitted; the validator only produces `ValidationError`). -/
inductive PatternError where
  | FileError : PatternError
  | ParseError : PatternError
  | ValidationError : String → PatternError
deriving DecidableEq

instance : DecidableEq (Except PatternError Unit) := fun a b =>
  match a, b with
  | .error e, .error f => decidable_of_iff (e = f) (by simp)
  | .error _, .ok _ => isFalse (fun h => Except.noConfusion h)
  | .ok _, .error _ => isFalse (fun h => Except.noConfusion h)
  | .ok u, .ok v => decidable_of_iff (u = v) (by simp)

/-- The color-range check of `validate_pattern` for one pixel. -/
def checkColor (c : Color) : Except PatternError Unit :=
  if c.r < 0 ∨ 1 < c.r ∨ c.g < 0 ∨ 1 < c.g ∨ c.b < 0 ∨ 1 < c.b ∨ c.a < 0 ∨ 1 < c.a then
    Except.error (PatternError.ValidationError "Color values must be between 0.0 and 1.0")
  else Except.ok ()

/-- Mark a position of the `used_positions` table. -/
def updB (u : ℕ → ℕ → Bool) (y x : ℕ) : ℕ → ℕ → Bool :=
  fun Y X => if Y = y ∧ X = x then true else u Y X

/-- The per-entry loop of the permutation check: coordinate range check,
then duplicate check against `used_positions`. -/
def checkMappingEntries :
    List (ℕ × ℕ) → (ℕ → ℕ → Bool) → Except PatternError (ℕ → ℕ → Bool)
  | [], used => Except.ok used
  | (y, x) :: rest, used =>
    if 2 ≤ y ∨ 2 ≤ x then
      Except.error (PatternError.ValidationError "Permutation mapping coordinates must be less than 2")
    else if used y x then
      Except.error (PatternError.ValidationError "Permutation mapping contains duplicate positions")
    else checkMappingEntries rest (updB used y x)

/-- The permutation check of `validate_pattern` for one pixel: entry loop,
then the completeness check over all four positions. -/
def checkPerm (p : Permutation) : Except PatternError Unit :=
  (checkMappingEntries [p.mapping 0, p.mapping 1, p.mapping 2, p.mapping 3]
      (fun _ _ => false)).bind fun used =>
    if used 0 0 && used 0 1 && used 1 0 && used 1 1 then Except.ok ()
    else Except.error (PatternError.ValidationError "Permutation mapping must use all positions")

/-- `validate_pattern`: the color pass over all pixels in row-major order,
then the permutation pass. -/
def validate_pattern (pattern : Pattern) : Except PatternError Unit :=
  (checkColor (pattern.pixels 0 0).color).bind fun _ =>
  (checkColor (pattern.pixels 0 1).color).bind fun _ =>
  (checkColor (pattern.pixels 1 0).color).bind fun _ =>
  (checkColor (pattern.pixels 1 1).color).bind fun _ =>
  (checkPerm (pattern.pixels 0 0).perm).bind fun _ =>
  (checkPerm (pattern.pixels 0 1).perm).bind fun _ =>
  (checkPerm (pattern.pixels 1 0).perm).bind fun _ =>
  checkPerm (pattern.pixels 1 1).perm

/-- All four channels lie in the closed interval from 0 to 1. -/
def colorInRange (c : Color) : Prop :=
  0 ≤ c.r ∧ c.r ≤ 1 ∧ 0 ≤ c.g ∧ c.g ≤ 1 ∧ 0 ≤ c.b ∧ c.b ≤ 1 ∧ 0 ≤ c.a ∧ c.a ≤ 1

instance (c : Color) : Decidable (colorInRange c) := by
  unfold colorInRange; infer_instance

/-- An unobjectionable pixel used to build the validator test patterns. -/
def plainPixel : Pixel := ⟨⟨0, 0, 0, 1⟩, Permutation.identity⟩

/-- Pattern with one color channel equal to 1.5. -/
def badColorPattern : Pattern :=
  ⟨![![⟨⟨mkRat 3 2, 0, 0, 1⟩, Permutation.identity⟩, plainPixel], ![plainPixel, plainPixel]]⟩

/-- Pattern whose first mapping contains the out-of-range coordinate (2, 0). -/
def badCoordPattern : Pattern :=
  ⟨![![⟨⟨0, 0, 0, 1⟩, ⟨![(2, 0), (0, 1), (1, 0), (1, 1)]⟩⟩, plainPixel],
     ![plainPixel, plainPixel]]⟩

/-- Pattern whose first mapping sends two source cells to (0, 0). -/
def dupPattern : Pattern :=
  ⟨![![⟨⟨0, 0, 0, 1⟩, ⟨![(0, 0), (0, 0), (1, 0), (1, 1)]⟩⟩, plainPixel],
     ![plainPixel, plainPixel]]⟩

/-- Pattern whose first mapping covers only 3 distinct destinations. -/
def threeDestPattern : Pattern :=
  ⟨![![⟨⟨0, 0, 0, 1⟩, ⟨![(0, 0), (0, 1), (1, 0), (1, 0)]⟩⟩, plainPixel],
     ![plainPixel, plainPixel]]⟩

/-- A concrete 2x2 grid of naturals used by witnesses. -/
def exGrid : Grid2 ℕ := fun y x => 2 * (y : ℕ) + (x : ℕ)

/-- The concrete color of the quantization test. -/
def point999 : Color := ⟨mkRat 999 1000, mkRat 999 1000, mkRat 999 1000, mkRat 999 1000⟩

theorem compose_eq_total (self other : Permutation) (h : self.InRange) :
    self.compose other = some (composeT self other) := by
  have h4 : ∀ i : Fin 4, flatIdx (self.mapping i) < 4 := by
    intro i
    have := h i
    unfold flatIdx
    omega
  unfold Permutation.compose composeEntry
  simp only [dif_pos (h4 0), dif_pos (h4 1), dif_pos (h4 2), dif_pos (h4 3), Option.some_bind]
  congr 1
  unfold composeT
  congr 1
  funext i
  fin_cases i <;>
    simp [Matrix.cons_val_zero, Matrix.cons_val_one] <;>
    exact congrArg other.mapping (Fin.ext (Nat.mod_eq_of_lt (h4 _)).symm)

theorem apply_eq_total (p : Permutation) (g : Grid2 α) (h : p.InRange) :
    p.apply g = some (applyT p g) := by
  unfold Permutation.apply applyT write2 writeT
  simp only [dif_pos (h 0), dif_pos (h 1), dif_pos (h 2), dif_pos (h 3), Option.some_bind]

theorem writeT_eq (g : Grid2 α) (y x : ℕ) (v : α) (h1 : y < 2) (h2 : x < 2) :
    writeT g y x v = update2 g ⟨y, h1⟩ ⟨x, h2⟩ v := by
  unfold writeT
  exact dif_pos ⟨h1, h2⟩

theorem applyT_at_dest (p : Permutation) (hp : p.IsBijection) (g : Grid2 α) (i : Fin 4) :
    applyT p g ⟨(p.mapping i).1, (hp.1 i).1⟩ ⟨(p.mapping i).2, (hp.1 i).2⟩ =
      g ⟨i.val / 2, by have := i.isLt; omega⟩ ⟨i.val % 2, by have := i.isLt; omega⟩ := by
  obtain ⟨hr, hinj⟩ := hp
  have hne : ∀ a b : Fin 4, a ≠ b →
      ¬((⟨(p.mapping a).1, (hr a).1⟩ : Fin 2) = ⟨(p.mapping b).1, (hr b).1⟩ ∧
        (⟨(p.mapping a).2, (hr a).2⟩ : Fin 2) = ⟨(p.mapping b).2, (hr b).2⟩) := by
    rintro a b hab ⟨h1, h2⟩
    apply hab
    apply hinj
    rw [Fin.mk.injEq] at h1 h2
    exact Prod.ext_iff.mpr ⟨h1, h2⟩
  rw [applyT, writeT_eq _ _ _ _ (hr 0).1 (hr 0).2, writeT_eq _ _ _ _ (hr 1).1 (hr 1).2,
    writeT_eq _ _ _ _ (hr 2).1 (hr 2).2, writeT_eq _ _ _ _ (hr 3).1 (hr 3).2]
  fin_cases i
  · simp only [update2]
    rw [if_neg (hne ⟨0, by omega⟩ 3 (by decide)), if_neg (hne ⟨0, by omega⟩ 2 (by decide)),
      if_neg (hne ⟨0, by omega⟩ 1 (by decide)), if_pos ⟨rfl, rfl⟩]
    exact rfl
  · simp only [update2]
    rw [if_neg (hne ⟨1, by omega⟩ 3 (by decide)), if_neg (hne ⟨1, by omega⟩ 2 (by decide)),
      if_pos ⟨rfl, rfl⟩]
    exact rfl
  · simp only [update2]
    rw [if_neg (hne ⟨2, by omega⟩ 3 (by decide)), if_pos ⟨rfl, rfl⟩]
    exact rfl
  · simp only [update2]
    rw [if_pos ⟨rfl, rfl⟩]
    exact rfl

theorem four_distinct_cover :
    ∀ a b c d e : Fin 2 × Fin 2, (a ≠ b ∧ a ≠ c ∧ a ≠ d ∧ b ≠ c ∧ b ≠ d ∧ c ≠ d) →
      e = a ∨ e = b ∨ e = c ∨ e = d := by
  decide

theorem bij_surj (p : Permutation) (hp : p.IsBijection) (Y X : Fin 2) :
    ∃ i : Fin 4, p.mapping i = ((Y : ℕ), (X : ℕ)) := by
  obtain ⟨hr, hinj⟩ := hp
  have hqinj : ∀ a b : Fin 4, a ≠ b →
      ((⟨(p.mapping a).1, (hr a).1⟩ : Fin 2), (⟨(p.mapping a).2, (hr a).2⟩ : Fin 2)) ≠
        ((⟨(p.mapping b).1, (hr b).1⟩ : Fin 2), (⟨(p.mapping b).2, (hr b).2⟩ : Fin 2)) := by
    intro a b hab he
    apply hab
    apply hinj
    have h1 := congrArg (fun z => (z.1 : ℕ)) he
    have h2 := congrArg (fun z => (z.2 : ℕ)) he
    exact Prod.ext_iff.mpr ⟨h1, h2⟩
  have hval : ∀ i : Fin 4,
      (Y, X) = ((⟨(p.mapping i).1, (hr i).1⟩ : Fin 2), (⟨(p.mapping i).2, (hr i).2⟩ : Fin 2)) →
      p.mapping i = ((Y : ℕ), (X : ℕ)) := by
    intro i he
    have h1 := congrArg (fun z => (z.1 : ℕ)) he
    have h2 := congrArg (fun z => (z.2 : ℕ)) he
    exact Prod.ext_iff.mpr ⟨h1.symm, h2.symm⟩
  rcases four_distinct_cover _ _ _ _ (Y, X)
      ⟨hqinj 0 1 (by decide), hqinj 0 2 (by decide), hqinj 0 3 (by decide),
       hqinj 1 2 (by decide), hqinj 1 3 (by decide), hqinj 2 3 (by decide)⟩ with
    h | h | h | h
  exacts [⟨0, hval 0 h⟩, ⟨1, hval 1 h⟩, ⟨2, hval 2 h⟩, ⟨3, hval 3 h⟩]

theorem composeT_inRange (a : Permutation) {b : Permutation} (hb : b.InRange) :
    (composeT a b).InRange := fun _ => hb _

theorem composeT_isBijection {a b : Permutation} (ha : a.IsBijection) (hb : b.IsBijection) :
    (composeT a b).IsBijection := by
  refine ⟨composeT_inRange a hb.1, ?_⟩
  intro i j hij
  simp only [composeT] at hij
  have h := congrArg Fin.val (hb.2 hij)
  have hi := ha.1 i
  have hj := ha.1 j
  apply ha.2
  simp only at h
  rw [Nat.mod_eq_of_lt (by unfold flatIdx; omega), Nat.mod_eq_of_lt (by unfold flatIdx; omega)] at h
  unfold flatIdx at h
  exact Prod.ext_iff.mpr ⟨by omega, by omega⟩

theorem applyT_composeT (a b : Permutation) (ha : a.IsBijection) (hb : b.IsBijection)
    (g : Grid2 α) : applyT (composeT a b) g = applyT b (applyT a g) := by
  have hc := composeT_isBijection ha hb
  funext Y X
  obtain ⟨k, hk⟩ := bij_surj (composeT a b) hc Y X
  have hY : Y = (⟨((composeT a b).mapping k).1, (hc.1 k).1⟩ : Fin 2) :=
    Fin.ext (congrArg Prod.fst hk).symm
  have hX : X = (⟨((composeT a b).mapping k).2, (hc.1 k).2⟩ : Fin 2) :=
    Fin.ext (congrArg Prod.snd hk).symm
  rw [hY, hX, applyT_at_dest (composeT a b) hc g k]
  have hstep1 :
      applyT b (applyT a g) ⟨((composeT a b).mapping k).1, (hc.1 k).1⟩
          ⟨((composeT a b).mapping k).2, (hc.1 k).2⟩ =
        applyT a g
          ⟨(⟨flatIdx (a.mapping k) % 4, Nat.mod_lt _ (by omega)⟩ : Fin 4).val / 2,
            by have : flatIdx (a.mapping k) % 4 < 4 := Nat.mod_lt _ (by omega); omega⟩
          ⟨(⟨flatIdx (a.mapping k) % 4, Nat.mod_lt _ (by omega)⟩ : Fin 4).val % 2, by omega⟩ :=
    applyT_at_dest b hb (applyT a g) ⟨flatIdx (a.mapping k) % 4, Nat.mod_lt _ (by omega)⟩
  rw [hstep1]
  have hik := ha.1 k
  have hd : (⟨(⟨flatIdx (a.mapping k) % 4, Nat.mod_lt _ (by omega)⟩ : Fin 4).val / 2,
      by have : flatIdx (a.mapping k) % 4 < 4 := Nat.mod_lt _ (by omega); omega⟩ : Fin 2) =
      ⟨(a.mapping k).1, (ha.1 k).1⟩ :=
    Fin.ext (by simp only; unfold flatIdx; omega)
  have hm : (⟨(⟨flatIdx (a.mapping k) % 4, Nat.mod_lt _ (by omega)⟩ : Fin 4).val % 2,
      by omega⟩ : Fin 2) = ⟨(a.mapping k).2, (ha.1 k).2⟩ :=
    Fin.ext (by simp only; unfold flatIdx; omega)
  rw [hd, hm, applyT_at_dest a ha g k]

/-- Claim C1: for valid bijections `a`, `b` and any 2x2 grid `g`, applying the
composed symmetry to `g` equals applying `b` to the result of applying `a`
to `g`. -/
theorem spec_C1 (a b : Permutation) (g : Grid2 α)
    (ha : a.IsBijection) (hb : b.IsBijection) :
    (a.compose b).bind (fun c => c.apply g) = (a.apply g).bind (fun r => b.apply r) := by
  rw [compose_eq_total a b ha.1, Option.some_bind, apply_eq_total a g ha.1, Option.some_bind,
    apply_eq_total (composeT a b) g (composeT_inRange a hb.1),
    apply_eq_total b (applyT a g) hb.1, applyT_composeT a b ha hb g]

/-- Witness for C1: concrete symmetries and a concrete grid. -/
theorem spec_C1_witness :
    Permutation.rotate_90.IsBijection ∧ Permutation.flip_h.IsBijection ∧
      (Permutation.rotate_90.compose Permutation.flip_h).bind (fun c => c.apply exGrid) =
        (Permutation.rotate_90.apply exGrid).bind (fun r => Permutation.flip_h.apply r) :=
  ⟨by decide, by decide, spec_C1 Permutation.rotate_90 Permutation.flip_h exGrid
    (by decide) (by decide)⟩

theorem composeT_assoc (a b c : Permutation) :
    composeT (composeT a b) c = composeT a (composeT b c) := rfl

theorem permExt {p q : Permutation} (h : p.mapping = q.mapping) : p = q := by
  cases p
  cases q
  cases h
  rfl

theorem composeT_identity_left (s : Permutation) :
    composeT Permutation.identity s = s := by
  apply permExt
  funext i
  fin_cases i <;> rfl

theorem composeT_identity_right (s : Permutation) (hs : s.InRange) :
    composeT s Permutation.identity = s := by
  have hmk : ∀ m : ℕ × ℕ, m.1 < 2 → m.2 < 2 →
      Permutation.identity.mapping ⟨flatIdx m % 4, Nat.mod_lt _ (by omega)⟩ = m := by
    rintro ⟨y, x⟩ hy hx
    interval_cases y <;> interval_cases x <;> rfl
  apply permExt
  funext i
  exact hmk (s.mapping i) (hs i).1 (hs i).2

theorem applyT_identity (g : Grid2 α) : applyT Permutation.identity g = g := by
  funext Y X
  fin_cases Y <;> fin_cases X <;> rfl

/-- Claim C9: symmetry composition is associative, the identity symmetry is a
two-sided identity for composition, and applying the identity symmetry to any
2x2 grid returns the grid unchanged. -/
theorem spec_C9 :
    (∀ a b c : Permutation, a.IsBijection → b.IsBijection → c.IsBijection →
      (a.compose b).bind (fun ab => ab.compose c) =
        (b.compose c).bind (fun bc => a.compose bc)) ∧
    (∀ s : Permutation, s.IsBijection →
      Permutation.identity.compose s = some s ∧
        s.compose Permutation.identity = some s) ∧
    (∀ (α : Type u) (g : Grid2 α), Permutation.identity.apply g = some g) := by
  refine ⟨?_, ?_, ?_⟩
  · intro a b c ha hb _hc
    rw [compose_eq_total a b ha.1, Option.some_bind, compose_eq_total b c hb.1,
      Option.some_bind, compose_eq_total (composeT a b) c (composeT_inRange a hb.1),
      compose_eq_total a (composeT b c) ha.1]
    exact congrArg some (composeT_assoc a b c)
  · intro s hs
    constructor
    · rw [compose_eq_total Permutation.identity s (by decide), composeT_identity_left s]
    · rw [compose_eq_total s Permutation.identity hs.1, composeT_identity_right s hs.1]
  · intro α g
    rw [apply_eq_total Permutation.identity g (by decide), applyT_identity g]

/-- Witness for C9: concrete symmetries and a concrete grid. -/
theorem spec_C9_witness :
    ((Permutation.rotate_90.compose Permutation.flip_h).bind
        (fun ab => ab.compose Permutation.flip_v) =
      (Permutation.flip_h.compose Permutation.flip_v).bind
        (fun bc => Permutation.rotate_90.compose bc)) ∧
    (Permutation.identity.compose Permutation.rotate_270 = some Permutation.rotate_270 ∧
      Permutation.rotate_270.compose Permutation.identity = some Permutation.rotate_270) ∧
    Permutation.identity.apply exGrid = some exGrid :=
  ⟨spec_C9.{0}.1 Permutation.rotate_90 Permutation.flip_h Permutation.flip_v
      (by decide) (by decide) (by decide),
   spec_C9.{0}.2.1 Permutation.rotate_270 (by decide),
   spec_C9.{0}.2.2 ℕ exGrid⟩

/-- Claim C7: export quantization scales by 255 and truncates (floor on
nonnegative inputs, never rounding), and the channel value 0.999 exports
as 254, not 255. -/
theorem spec_C7 :
    (∀ q : ℚ, 0 ≤ q → q ≤ 1 → toByte (q * 255) = (⌊q * 255⌋).toNat) ∧
    Color.to_rgba point999 = [254, 254, 254, 254] := by
  constructor
  · intro q h0 h1
    unfold toByte
    rw [if_neg (not_lt.mpr (mul_nonneg h0 (by norm_num)))]
    have h255 : ⌊q * 255⌋ ≤ 255 := by
      have hq : q * 255 ≤ 255 := by nlinarith
      have := Int.floor_le_floor hq
      simpa using this
    exact min_eq_right (by omega)
  · simp only [Color.to_rgba, point999, toByte]
    norm_num [Rat.mkRat_eq_div]
    decide

/-- Witness for C7: the general truncation law applied at 0.999. -/
theorem spec_C7_witness :
    toByte (mkRat 999 1000 * 255) = (⌊mkRat 999 1000 * 255⌋).toNat :=
  spec_C7.1 (mkRat 999 1000) (by decide) (by decide)

/-- Claim C10: with `iterations = 0` the final size is 1, the seeding step
attempts an out-of-bounds write at position (0, 1) of the 1x1 buffer, and
`generate_fractal` returns no grid. -/
theorem spec_C10 :
    (∀ (pat : Pattern) (decay : ℚ), generate_fractal 0 pat decay = none) ∧
    (∀ (g : GridN Pixel) (v : Pixel), writeC 1 g 0 1 v = none) := by
  constructor
  · intro pat decay
    rfl
  · intro g v
    rfl

/-- Claim C4: with one iteration the generator skips the expansion loop and
returns exactly the pattern's four colors in row-major order, for every
pattern (validated or not) and independent of the decay value. -/
theorem spec_C4 (pat : Pattern) (decay : ℚ) :
    generate_fractal 1 pat decay =
      some [[(pat.pixels 0 0).color, (pat.pixels 0 1).color],
            [(pat.pixels 1 0).color, (pat.pixels 1 1).color]] := by
  rfl

theorem checkColor_ok (c : Color) : checkColor c = Except.ok () ↔ colorInRange c := by
  unfold checkColor colorInRange
  split_ifs with h
  · constructor
    · intro hok
      simp at hok
    · rintro ⟨h1, h2, h3, h4, h5, h6, h7, h8⟩
      exfalso
      rcases h with h | h | h | h | h | h | h | h <;> linarith
  · constructor
    · intro _
      push_neg at h
      exact h
    · intro _
      rfl

theorem cme_ok (l : List (ℕ × ℕ)) (used : ℕ → ℕ → Bool) :
    (∃ u, checkMappingEntries l used = Except.ok u) ↔
      ((∀ e ∈ l, e.1 < 2 ∧ e.2 < 2) ∧ l.Pairwise (· ≠ ·) ∧
        ∀ e ∈ l, used e.1 e.2 = false) := by
  induction l generalizing used with
  | nil => simp [checkMappingEntries]
  | cons hd tl ih =>
    rcases hd with ⟨y, x⟩
    simp only [checkMappingEntries]
    split_ifs with hc hdup
    · constructor
      · rintro ⟨u, hu⟩
        simp at hu
      · rintro ⟨h1, -, -⟩
        have := h1 (y, x) (List.mem_cons_self _ _)
        exfalso
        simp at this
        omega
    · constructor
      · rintro ⟨u, hu⟩
        simp at hu
      · rintro ⟨-, -, h3⟩
        have := h3 (y, x) (List.mem_cons_self _ _)
        simp at this
        rw [this] at hdup
        simp at hdup
    · rw [ih (updB used y x)]
      push_neg at hc
      constructor
      · rintro ⟨h1, h2, h3⟩
        refine ⟨?_, ?_, ?_⟩
        · intro e he
          rcases List.mem_cons.mp he with rfl | he'
          · exact hc
          · exact h1 e he'
        · refine List.pairwise_cons.mpr ⟨?_, h2⟩
          intro e he heq
          have h3e := h3 e he
          unfold updB at h3e
          rw [← heq] at h3e
          simp at h3e
        · intro e he
          rcases List.mem_cons.mp he with rfl | he'
          · exact Bool.eq_false_iff.mpr hdup
          · have h3e := h3 e he'
            unfold updB at h3e
            by_cases hcond : e.1 = y ∧ e.2 = x
            · rw [if_pos hcond] at h3e
              simp at h3e
            · rw [if_neg hcond] at h3e
              exact h3e
      · rintro ⟨h1, h2, h3⟩
        refine ⟨fun e he => h1 e (List.mem_cons_of_mem _ he),
          (List.pairwise_cons.mp h2).2, ?_⟩
        intro e he
        unfold updB
        have hne : (y, x) ≠ e := (List.pairwise_cons.mp h2).1 e he
        have hnc : ¬(e.1 = y ∧ e.2 = x) := by
          rintro ⟨hy, hx⟩
          exact hne (by rw [Prod.ext_iff]; exact ⟨hy.symm, hx.symm⟩)
        rw [if_neg hnc]
        exact h3 e (List.mem_cons_of_mem _ he)

theorem cme_val (l : List (ℕ × ℕ)) :
    ∀ (used u : ℕ → ℕ → Bool), checkMappingEntries l used = Except.ok u →
      ∀ Y X : ℕ, u Y X = (used Y X || decide ((Y, X) ∈ l)) := by
  induction l with
  | nil =>
    intro used u h Y X
    simp only [checkMappingEntries] at h
    cases h
    simp
  | cons hd tl ih =>
    rcases hd with ⟨y, x⟩
    intro used u h Y X
    simp only [checkMappingEntries] at h
    split_ifs at h with hc hdup
    have hrec := ih (updB used y x) u h Y X
    rw [hrec]
    unfold updB
    by_cases hcond : Y = y ∧ X = x
    · rw [if_pos hcond]
      obtain ⟨rfl, rfl⟩ := hcond
      simp [List.mem_cons_self]
    · rw [if_neg hcond]
      have hmemiff : (((Y, X) : ℕ × ℕ) ∈ (y, x) :: tl) ↔ ((Y, X) : ℕ × ℕ) ∈ tl := by
        rw [List.mem_cons]
        constructor
        · rintro (he | he)
          · exact absurd (Prod.ext_iff.mp he) (by simpa using hcond)
          · exact he
        · exact Or.inr
      simp only [hmemiff]

theorem pairwise_four {a b c d : ℕ × ℕ} :
    ([a, b, c, d].Pairwise (· ≠ ·)) ↔
      (a ≠ b ∧ a ≠ c ∧ a ≠ d ∧ b ≠ c ∧ b ≠ d ∧ c ≠ d) := by
  constructor
  · intro h
    rcases List.pairwise_cons.mp h with ⟨ha, h⟩
    rcases List.pairwise_cons.mp h with ⟨hb, h⟩
    rcases List.pairwise_cons.mp h with ⟨hc, -⟩
    exact ⟨ha _ (by simp), ha _ (by simp), ha _ (by simp),
      hb _ (by simp), hb _ (by simp), hc _ (by simp)⟩
  · rintro ⟨h1, h2, h3, h4, h5, h6⟩
    refine List.pairwise_cons.mpr ⟨?_, List.pairwise_cons.mpr ⟨?_,
      List.pairwise_cons.mpr ⟨?_, List.pairwise_cons.mpr ⟨by simp, List.Pairwise.nil⟩⟩⟩⟩
    · intro e he
      simp only [List.mem_cons, List.not_mem_nil, or_false] at he
      rcases he with rfl | rfl | rfl
      exacts [h1, h2, h3]
    · intro e he
      simp only [List.mem_cons, List.not_mem_nil, or_false] at he
      rcases he with rfl | rfl
      exacts [h4, h5]
    · intro e he
      simp only [List.mem_cons, List.not_mem_nil, or_false] at he
      rcases he with rfl
      exact h6

theorem mapping_list_mem (p : Permutation) (i : Fin 4) :
    p.mapping i ∈ [p.mapping 0, p.mapping 1, p.mapping 2, p.mapping 3] := by
  fin_cases i <;> simp

theorem checkPerm_ok (p : Permutation) :
    checkPerm p = Except.ok () ↔ p.IsBijection := by
  unfold checkPerm
  constructor
  · intro h
    cases hcme : checkMappingEntries [p.mapping 0, p.mapping 1, p.mapping 2, p.mapping 3]
        (fun _ _ => false) with
    | error e =>
      rw [hcme] at h
      simp [Except.bind] at h
    | ok u =>
      have hex := cme_ok [p.mapping 0, p.mapping 1, p.mapping 2, p.mapping 3]
        (fun _ _ => false) |>.mp ⟨u, hcme⟩
      obtain ⟨h1, h2, -⟩ := hex
      have hinr : p.InRange := by
        intro i
        exact h1 (p.mapping i) (mapping_list_mem p i)
      refine ⟨hinr, ?_⟩
      obtain ⟨d01, d02, d03, d12, d13, d23⟩ := pairwise_four.mp h2
      intro i j hij
      fin_cases i <;> fin_cases j <;>
        first
          | rfl
          | (exact absurd hij (by assumption))
          | (exact absurd hij.symm (by assumption))
  · rintro hbij
    obtain ⟨hr, hinj⟩ := hbij
    have hdist : ∀ i j : Fin 4, i ≠ j → p.mapping i ≠ p.mapping j := by
      intro i j hij he
      exact hij (hinj he)
    have hok := cme_ok [p.mapping 0, p.mapping 1, p.mapping 2, p.mapping 3]
      (fun _ _ => false) |>.mpr
      ⟨by
        intro e he
        simp only [List.mem_cons, List.not_mem_nil, or_false] at he
        rcases he with rfl | rfl | rfl | rfl
        · exact hr 0
        · exact hr 1
        · exact hr 2
        · exact hr 3,
       pairwise_four.mpr
        ⟨hdist 0 1 (by decide), hdist 0 2 (by decide), hdist 0 3 (by decide),
         hdist 1 2 (by decide), hdist 1 3 (by decide), hdist 2 3 (by decide)⟩,
       fun e _ => rfl⟩
    obtain ⟨u, hcme⟩ := hok
    rw [hcme]
    have hmem : ∀ Y X : Fin 2, ((Y : ℕ), (X : ℕ)) ∈
        [p.mapping 0, p.mapping 1, p.mapping 2, p.mapping 3] := by
      intro Y X
      obtain ⟨i, hi⟩ := bij_surj p ⟨hr, hinj⟩ Y X
      rw [← hi]
      exact mapping_list_mem p i
    have hval := cme_val [p.mapping 0, p.mapping 1, p.mapping 2, p.mapping 3]
      (fun _ _ => false) u hcme
    have h00 : u 0 0 = true := by
      rw [hval 0 0]
      simpa using hmem 0 0
    have h01 : u 0 1 = true := by
      rw [hval 0 1]
      simpa using hmem 0 1
    have h10 : u 1 0 = true := by
      rw [hval 1 0]
      simpa using hmem 1 0
    have h11 : u 1 1 = true := by
      rw [hval 1 1]
      simpa using hmem 1 1
    simp [Except.bind, h00, h01, h10, h11]

theorem except_bind_ok_unit (a : Except PatternError Unit)
    (f : Unit → Except PatternError Unit) :
    (a.bind f = Except.ok ()) ↔ (a = Except.ok () ∧ f () = Except.ok ()) := by
  cases a with
  | error e => simp [Except.bind]
  | ok u =>
    cases u
    simp [Except.bind]

/-- Claim C6: the validator succeeds exactly when all color channels lie in
the unit interval and every pixel's mapping is a bijection; the four
concrete defective patterns are each rejected with a validation failure,
and the validation messages of the four checks are pairwise distinct. -/
theorem spec_C6 :
    (∀ pat : Pattern, validate_pattern pat = Except.ok () ↔
      ((∀ y x : Fin 2, colorInRange (pat.pixels y x).color) ∧
       (∀ y x : Fin 2, (pat.pixels y x).perm.IsBijection))) ∧
    validate_pattern badColorPattern =
      Except.error (PatternError.ValidationError
        "Color values must be between 0.0 and 1.0") ∧
    validate_pattern badCoordPattern =
      Except.error (PatternError.ValidationError
        "Permutation mapping coordinates must be less than 2") ∧
    validate_pattern dupPattern =
      Except.error (PatternError.ValidationError
        "Permutation mapping contains duplicate positions") ∧
    validate_pattern threeDestPattern =
      Except.error (PatternError.ValidationError
        "Permutation mapping contains duplicate positions") ∧
    ([("Color values must be between 0.0 and 1.0" : String),
      "Permutation mapping coordinates must be less than 2",
      "Permutation mapping contains duplicate positions",
      "Permutation mapping must use all positions"].Pairwise (· ≠ ·)) := by
  refine ⟨?_, by decide, by decide, by decide, by decide, by decide⟩
  intro pat
  unfold validate_pattern
  simp only [except_bind_ok_unit, checkColor_ok, checkPerm_ok]
  constructor
  · rintro ⟨h1, h2, h3, h4, h5, h6, h7, h8⟩
    constructor
    · intro y x
      fin_cases y <;> fin_cases x <;> assumption
    · intro y x
      fin_cases y <;> fin_cases x <;> assumption
  · rintro ⟨hc, hp⟩
    exact ⟨hc 0 0, hc 0 1, hc 1 0, hc 1 1, hp 0 0, hp 0 1, hp 1 0, hp 1 1⟩

theorem writeT_mem (g : Grid2 α) (h : Grid2 α) (y x : ℕ) (C D : Fin 2)
    (hh : ∀ Y X, ∃ A B, h Y X = g A B) :
    ∀ Y X, ∃ A B, writeT h y x (g C D) Y X = g A B := by
  intro Y X
  unfold writeT
  split_ifs with hc
  · unfold update2
    split_ifs with he
    · exact ⟨C, D, rfl⟩
    · exact hh Y X
  · exact hh Y X

theorem applyT_mem (p : Permutation) (g : Grid2 α) :
    ∀ Y X, ∃ A B, applyT p g Y X = g A B := by
  unfold applyT
  apply writeT_mem
  apply writeT_mem
  apply writeT_mem
  apply writeT_mem
  intro Y X
  exact ⟨0, 0, rfl⟩

theorem identity_inRange : Permutation.identity.InRange := by decide

theorem npSrc_eq (n cs : ℕ) (p q : Permutation) (hp : p.InRange) :
    npSrc n cs p q = some (npSrcT n cs p q) := by
  unfold npSrc npSrcT
  split_ifs with h
  · exact compose_eq_total p q hp
  · rfl

theorem npVar_eq (cs : ℕ) (p q : Permutation) (hp : p.InRange) :
    npVar cs p q = some (npVarT cs p q) :=
  compose_eq_total p q hp

theorem npSrcT_inRange (n cs : ℕ) (p q : Permutation) (hq : q.InRange) :
    (npSrcT n cs p q).InRange := by
  unfold npSrcT
  split_ifs with h
  · exact composeT_inRange p hq
  · exact identity_inRange

theorem npVarT_inRange (cs : ℕ) (p q : Permutation) (hq : q.InRange) :
    (npVarT cs p q).InRange :=
  composeT_inRange p hq

theorem stepF_at (pat : Pattern) (npT : Permutation → Permutation → Permutation)
    (blend : ℚ) (g : GridN Pixel) (y x dv ev : ℕ) (hd : dv < 2) (he : ev < 2) :
    stepF pat npT blend g (y * 2 + dv) (x * 2 + ev) =
      childPixel pat npT blend (g y x) ⟨dv, hd⟩ ⟨ev, he⟩ := by
  have h1 : (y * 2 + dv) / 2 = y := by omega
  have h2 : (x * 2 + ev) / 2 = x := by omega
  have h3 : (⟨(y * 2 + dv) % 2, Nat.mod_lt _ (by omega)⟩ : Fin 2) = ⟨dv, hd⟩ :=
    Fin.ext (by show (y * 2 + dv) % 2 = dv; omega)
  have h4 : (⟨(x * 2 + ev) % 2, Nat.mod_lt _ (by omega)⟩ : Fin 2) = ⟨ev, he⟩ :=
    Fin.ext (by show (x * 2 + ev) % 2 = ev; omega)
  unfold stepF
  rw [h1, h2, h3, h4]

theorem seed_writes {β : Type u} (n : ℕ) (pat : Pattern) (hn : 2 ≤ n)
    (k : GridN Pixel → Option β) :
    ((writeC n (fun _ _ => initPixel) 0 0 (pat.pixels 0 0)).bind fun g1 =>
     (writeC n g1 0 1 (pat.pixels 0 1)).bind fun g2 =>
     (writeC n g2 1 0 (pat.pixels 1 0)).bind fun g3 =>
     (writeC n g3 1 1 (pat.pixels 1 1)).bind k) = k (seedGrid pat) := by
  unfold writeC seedGrid
  rw [if_pos ⟨by omega, by omega⟩, Option.some_bind, if_pos ⟨by omega, by omega⟩,
    Option.some_bind, if_pos ⟨by omega, by omega⟩, Option.some_bind,
    if_pos ⟨by omega, by omega⟩, Option.some_bind]

theorem seedGrid_permsOk (pat : Pattern)
    (hpat : ∀ y x : Fin 2, (pat.pixels y x).perm.InRange) :
    PermsOk (seedGrid pat) := by
  intro Y X
  unfold seedGrid updN
  split_ifs
  · exact hpat 1 1
  · exact hpat 1 0
  · exact hpat 0 1
  · exact hpat 0 0
  · exact identity_inRange

theorem validate_ok_bij (pat : Pattern) (hv : validate_pattern pat = Except.ok ()) :
    ∀ y x : Fin 2, (pat.pixels y x).perm.IsBijection := by
  unfold validate_pattern at hv
  simp only [except_bind_ok_unit, checkColor_ok, checkPerm_ok] at hv
  obtain ⟨-, -, -, -, h5, h6, h7, h8⟩ := hv
  intro y x
  fin_cases y <;> fin_cases x <;> assumption

theorem writeC_in (n : ℕ) (h : GridN α) (y x : ℕ) (v : α) (h1 : y < n) (h2 : x < n) :
    writeC n h y x v = some (updN h y x v) := by
  unfold writeC
  rw [if_pos ⟨h1, h2⟩]

theorem processCell_eq (n : ℕ) (pat : Pattern)
    (np : Permutation → Permutation → Option Permutation)
    (npT : Permutation → Permutation → Permutation)
    (hnp : ∀ p q, p.InRange → np p q = some (npT p q))
    (blend : ℚ) (cs : ℕ) (hcs : cs * 2 ≤ n)
    (g : GridN Pixel) (hg : PermsOk g)
    (y x : ℕ) (hy : y < cs) (hx : x < cs) :
    processCell n pat np blend (partGrid cs (stepF pat npT blend g) g y (x + 1)) y x =
      some (partGrid cs (stepF pat npT blend g) g y x) := by
  have hread : partGrid cs (stepF pat npT blend g) g y (x + 1) y x = g y x := by
    unfold partGrid
    rw [if_neg (by omega)]
  unfold processCell
  rw [show readC n (partGrid cs (stepF pat npT blend g) g y (x + 1)) y x = some (g y x) from by
      unfold readC
      rw [if_pos ⟨by omega, by omega⟩, hread],
    Option.some_bind, apply_eq_total (g y x).perm pat.pixels (hg y x), Option.some_bind,
    hnp _ _ (hg y x), Option.some_bind,
    writeC_in n _ (y * 2) (x * 2) _ (by omega) (by omega), Option.some_bind,
    hnp _ _ (hg y x), Option.some_bind,
    writeC_in n _ (y * 2) (x * 2 + 1) _ (by omega) (by omega), Option.some_bind,
    hnp _ _ (hg y x), Option.some_bind,
    writeC_in n _ (y * 2 + 1) (x * 2) _ (by omega) (by omega), Option.some_bind,
    hnp _ _ (hg y x), Option.some_bind,
    writeC_in n _ (y * 2 + 1) (x * 2 + 1) _ (by omega) (by omega)]
  refine congrArg some ?_
  funext Y X
  simp only [updN]
  by_cases h11 : Y = y * 2 + 1 ∧ X = x * 2 + 1
  · obtain ⟨rfl, rfl⟩ := h11
    rw [if_pos ⟨rfl, rfl⟩]
    unfold partGrid
    rw [if_pos (by omega), stepF_at pat npT blend g y x 1 1 (by omega) (by omega)]
    rfl
  · rw [if_neg h11]
    by_cases h10 : Y = y * 2 + 1 ∧ X = x * 2
    · obtain ⟨rfl, rfl⟩ := h10
      rw [if_pos ⟨rfl, rfl⟩]
      unfold partGrid
      rw [if_pos (by omega),
        show stepF pat npT blend g (y * 2 + 1) (x * 2) =
            childPixel pat npT blend (g y x) ⟨1, by omega⟩ ⟨0, by omega⟩ from
          stepF_at pat npT blend g y x 1 0 (by omega) (by omega)]
      rfl
    · rw [if_neg h10]
      by_cases h01 : Y = y * 2 ∧ X = x * 2 + 1
      · obtain ⟨rfl, rfl⟩ := h01
        rw [if_pos ⟨rfl, rfl⟩]
        unfold partGrid
        rw [if_pos (by omega),
          show stepF pat npT blend g (y * 2) (x * 2 + 1) =
              childPixel pat npT blend (g y x) ⟨0, by omega⟩ ⟨1, by omega⟩ from
            stepF_at pat npT blend g y x 0 1 (by omega) (by omega)]
        rfl
      · rw [if_neg h01]
        by_cases h00 : Y = y * 2 ∧ X = x * 2
        · obtain ⟨rfl, rfl⟩ := h00
          rw [if_pos ⟨rfl, rfl⟩]
          unfold partGrid
          rw [if_pos (by omega),
            show stepF pat npT blend g (y * 2) (x * 2) =
                childPixel pat npT blend (g y x) ⟨0, by omega⟩ ⟨0, by omega⟩ from
              stepF_at pat npT blend g y x 0 0 (by omega) (by omega)]
          rfl
        · rw [if_neg h00]
          unfold partGrid
          exact if_congr (by omega) rfl rfl

theorem rowFold_eq (n : ℕ) (pat : Pattern)
    (np : Permutation → Permutation → Option Permutation)
    (npT : Permutation → Permutation → Permutation)
    (hnp : ∀ p q, p.InRange → np p q = some (npT p q))
    (blend : ℚ) (cs : ℕ) (hcs : cs * 2 ≤ n)
    (g : GridN Pixel) (hg : PermsOk g) (y : ℕ) (hy : y < cs) :
    ∀ x : ℕ, x ≤ cs →
      (List.range x).reverse.foldlM (fun h x' => processCell n pat np blend h y x')
        (partGrid cs (stepF pat npT blend g) g y x) =
      some (partGrid cs (stepF pat npT blend g) g y 0) := by
  intro x
  induction x with
  | zero => intro _; rfl
  | succ x ih =>
    intro hx
    have hsplit : (List.range (x + 1)).reverse = x :: (List.range x).reverse := by
      rw [List.range_succ]
      simp
    rw [hsplit, List.foldlM_cons,
      processCell_eq n pat np npT hnp blend cs hcs g hg y x hy (by omega)]
    simp only [Option.bind_eq_bind, Option.some_bind]
    exact ih (by omega)

theorem sweepFold_eq (n : ℕ) (pat : Pattern)
    (np : Permutation → Permutation → Option Permutation)
    (npT : Permutation → Permutation → Permutation)
    (hnp : ∀ p q, p.InRange → np p q = some (npT p q))
    (blend : ℚ) (cs : ℕ) (hcs : cs * 2 ≤ n)
    (g : GridN Pixel) (hg : PermsOk g) :
    ∀ y : ℕ, y ≤ cs →
      (List.range y).reverse.foldlM (fun h y' => rowSweep n pat np blend cs y' h)
        (partGrid cs (stepF pat npT blend g) g y 0) =
      some (partGrid cs (stepF pat npT blend g) g 0 0) := by
  intro y
  induction y with
  | zero => intro _; rfl
  | succ y ih =>
    intro hy
    have hsplit : (List.range (y + 1)).reverse = y :: (List.range y).reverse := by
      rw [List.range_succ]
      simp
    have hstart : partGrid cs (stepF pat npT blend g) g (y + 1) 0 =
        partGrid cs (stepF pat npT blend g) g y cs := by
      funext Y X
      unfold partGrid
      exact if_congr (by omega) rfl rfl
    rw [hsplit, List.foldlM_cons, hstart,
      show rowSweep n pat np blend cs y (partGrid cs (stepF pat npT blend g) g y cs) =
          some (partGrid cs (stepF pat npT blend g) g y 0) from
        rowFold_eq n pat np npT hnp blend cs hcs g hg y (by omega) cs le_rfl]
    simp only [Option.bind_eq_bind, Option.some_bind]
    exact ih (by omega)

theorem sweep_eq (n : ℕ) (pat : Pattern)
    (np : Permutation → Permutation → Option Permutation)
    (npT : Permutation → Permutation → Permutation)
    (hnp : ∀ p q, p.InRange → np p q = some (npT p q))
    (blend : ℚ) (cs : ℕ) (hcs : cs * 2 ≤ n)
    (g : GridN Pixel) (hg : PermsOk g) :
    sweep n pat np blend cs g = some (maskF cs (stepF pat npT blend g) g) := by
  have hinit : g = partGrid cs (stepF pat npT blend g) g cs 0 := by
    funext Y X
    unfold partGrid
    rw [if_neg (by omega)]
  have hfinal : partGrid cs (stepF pat npT blend g) g 0 0 =
      maskF cs (stepF pat npT blend g) g := by
    funext Y X
    unfold partGrid maskF
    exact if_congr (by omega) rfl rfl
  unfold sweep
  calc (List.range cs).reverse.foldlM (fun h y => rowSweep n pat np blend cs y h) g
      = (List.range cs).reverse.foldlM (fun h y => rowSweep n pat np blend cs y h)
          (partGrid cs (stepF pat npT blend g) g cs 0) := by rw [← hinit]
    _ = some (partGrid cs (stepF pat npT blend g) g 0 0) :=
        sweepFold_eq n pat np npT hnp blend cs hcs g hg cs le_rfl
    _ = some (maskF cs (stepF pat npT blend g) g) := by rw [hfinal]

theorem maskF_permsOk (pat : Pattern) (npT : Permutation → Permutation → Permutation)
    (hnpT : ∀ p q, p.InRange → q.InRange → (npT p q).InRange)
    (hpat : ∀ y x : Fin 2, (pat.pixels y x).perm.InRange)
    (blend : ℚ) (cs : ℕ) (g : GridN Pixel) (hg : PermsOk g) :
    PermsOk (maskF cs (stepF pat npT blend g) g) := by
  intro Y X
  unfold maskF
  split_ifs with h
  · unfold stepF childPixel
    apply hnpT
    · exact hg _ _
    · obtain ⟨A, B, hab⟩ := applyT_mem (g (Y / 2) (X / 2)).perm pat.pixels
        ⟨Y % 2, Nat.mod_lt _ (by omega)⟩ ⟨X % 2, Nat.mod_lt _ (by omega)⟩
      rw [hab]
      exact hpat A B
  · exact hg Y X

theorem expandLoop_eq (n it : ℕ) (hn : n = 2 ^ it) (pat : Pattern) (decay : ℚ)
    (np : ℕ → Permutation → Permutation → Option Permutation)
    (npT : ℕ → Permutation → Permutation → Permutation)
    (hnp : ∀ cs p q, p.InRange → np cs p q = some (npT cs p q))
    (hnpT : ∀ cs p q, p.InRange → q.InRange → (npT cs p q).InRange)
    (hpat : ∀ y x : Fin 2, (pat.pixels y x).perm.InRange) :
    ∀ (fuel j cs : ℕ) (blend : ℚ) (g : GridN Pixel), cs = 2 ^ j →
      n ≤ cs * 2 ^ fuel → PermsOk g →
      expandLoop n pat decay np fuel cs blend g =
        some (expandF n pat decay npT fuel cs blend g) := by
  intro fuel
  induction fuel with
  | zero =>
    intro j cs blend g hj hfuel hg
    have hcs : n ≤ cs := by simpa using hfuel
    simp only [expandLoop, expandF]
    rw [if_neg (by omega)]
  | succ fuel ih =>
    intro j cs blend g hj hfuel hg
    simp only [expandLoop, expandF]
    by_cases hlt : cs < n
    · have hcs2 : cs * 2 ≤ n := by
        subst hn hj
        have hj_lt : j < it := by
          by_contra hge
          push_neg at hge
          exact absurd (Nat.pow_le_pow_right (by omega) hge) (not_le.mpr hlt)
        calc 2 ^ j * 2 = 2 ^ (j + 1) := by ring
          _ ≤ 2 ^ it := Nat.pow_le_pow_right (by omega) (by omega)
      rw [if_pos hlt, if_pos hlt,
        sweep_eq n pat (np cs) (npT cs) (hnp cs) (blend * decay) cs hcs2 g hg,
        Option.some_bind]
      exact ih (j + 1) (cs * 2) (blend * decay) _
        (by rw [hj]; ring)
        (by calc n ≤ cs * 2 ^ (fuel + 1) := hfuel
              _ = cs * 2 * 2 ^ fuel := by ring)
        (maskF_permsOk pat (npT cs) (hnpT cs) hpat (blend * decay) cs g hg)
    · rw [if_neg hlt, if_neg hlt]

theorem generate_eq (it : ℕ) (pat : Pattern) (decay : ℚ)
    (hpat : ∀ y x : Fin 2, (pat.pixels y x).perm.InRange) (hit : 1 ≤ it) :
    generate_fractal it pat decay =
      some (extract (2 ^ it)
        (expandF (2 ^ it) pat decay (npSrcT (2 ^ it)) it 2 1 (seedGrid pat))) := by
  have h2n : 2 ≤ 2 ^ it :=
    le_trans (by omega) (Nat.pow_le_pow_right (by omega) hit)
  unfold generate_fractal
  refine Eq.trans (seed_writes (2 ^ it) pat h2n
    (fun g4 => Option.map (extract (2 ^ it))
      (expandLoop (2 ^ it) pat decay (npSrc (2 ^ it)) it 2 1 g4))) ?_
  show Option.map (extract (2 ^ it))
      (expandLoop (2 ^ it) pat decay (npSrc (2 ^ it)) it 2 1 (seedGrid pat)) = _
  rw [expandLoop_eq (2 ^ it) it rfl pat decay (npSrc (2 ^ it)) (npSrcT (2 ^ it))
      (fun cs p q hp => npSrc_eq (2 ^ it) cs p q hp)
      (fun cs p q _hp hq => npSrcT_inRange (2 ^ it) cs p q hq)
      hpat it 1 2 1 (seedGrid pat) (by norm_num)
      (by have h2 : (0:ℕ) < 2 ^ it := Nat.pos_pow_of_pos it (by omega)
          have h3 : (2:ℕ) ^ it ≤ 2 * 2 ^ it := by omega
          exact h3)
      (seedGrid_permsOk pat hpat)]
  rfl

theorem generate_composeAll_eq (it : ℕ) (pat : Pattern) (decay : ℚ)
    (hpat : ∀ y x : Fin 2, (pat.pixels y x).perm.InRange) (hit : 1 ≤ it) :
    generate_fractal_composeAll it pat decay =
      some (extract (2 ^ it)
        (expandF (2 ^ it) pat decay npVarT it 2 1 (seedGrid pat))) := by
  have h2n : 2 ≤ 2 ^ it :=
    le_trans (by omega) (Nat.pow_le_pow_right (by omega) hit)
  unfold generate_fractal_composeAll
  refine Eq.trans (seed_writes (2 ^ it) pat h2n
    (fun g4 => Option.map (extract (2 ^ it))
      (expandLoop (2 ^ it) pat decay npVar it 2 1 g4))) ?_
  show Option.map (extract (2 ^ it))
      (expandLoop (2 ^ it) pat decay npVar it 2 1 (seedGrid pat)) = _
  rw [expandLoop_eq (2 ^ it) it rfl pat decay npVar npVarT
      (fun cs p q hp => npVar_eq cs p q hp)
      (fun cs p q _hp hq => npVarT_inRange cs p q hq)
      hpat it 1 2 1 (seedGrid pat) (by norm_num)
      (by have h2 : (0:ℕ) < 2 ^ it := Nat.pos_pow_of_pos it (by omega)
          have h3 : (2:ℕ) ^ it ≤ 2 * 2 ^ it := by omega
          exact h3)
      (seedGrid_permsOk pat hpat)]
  rfl

theorem extract_length (n : ℕ) (g : GridN Pixel) : (extract n g).length = n := by
  simp [extract]

theorem extract_row_length (n : ℕ) (g : GridN Pixel) :
    ∀ row ∈ extract n g, row.length = n := by
  intro row hrow
  unfold extract at hrow
  rw [List.mem_map] at hrow
  obtain ⟨y, -, rfl⟩ := hrow
  simp

theorem extract_congr (n : ℕ) (g1 g2 : GridN Pixel)
    (h : ∀ Y X, Y < n → X < n → (g1 Y X).color = (g2 Y X).color) :
    extract n g1 = extract n g2 := by
  unfold extract
  apply List.map_congr_left
  intro y hy
  rw [List.mem_range] at hy
  apply List.map_congr_left
  intro x hx
  rw [List.mem_range] at hx
  rw [h y x hy hx]

/-- Claim C2: on a validated pattern, any `iterations >= 1` and decay in
`[0, 1]`, the generator performs no out-of-bounds grid access (it returns a
grid) and the output is square of side `2 ^ iterations`. -/
theorem spec_C2 (pat : Pattern) (it : ℕ) (decay : ℚ)
    (hv : validate_pattern pat = Except.ok ()) (hit : 1 ≤ it)
    (_hd0 : 0 ≤ decay) (_hd1 : decay ≤ 1) :
    ∃ out, generate_fractal it pat decay = some out ∧
      out.length = 2 ^ it ∧ ∀ row ∈ out, row.length = 2 ^ it :=
  ⟨_, generate_eq it pat decay (fun y x => (validate_ok_bij pat hv y x).1) hit,
    extract_length _ _, extract_row_length _ _⟩

/-- Witness for C2: the base pattern, one iteration, decay 1. -/
theorem spec_C2_witness :
    validate_pattern create_base_pattern = Except.ok () ∧ (1 : ℕ) ≤ 1 ∧
      (0 : ℚ) ≤ 1 ∧ (1 : ℚ) ≤ 1 ∧
      ∃ out, generate_fractal 1 create_base_pattern 1 = some out ∧
        out.length = 2 ^ 1 ∧ ∀ row ∈ out, row.length = 2 ^ 1 :=
  ⟨by decide, by decide, by decide, by decide,
    spec_C2 create_base_pattern 1 1 (by decide) (by decide) (by decide) (by decide)⟩

theorem dbStep_eq (n : ℕ) (pat : Pattern) (cs : ℕ) (blend : ℚ) (old : GridN Pixel) :
    dbStep n pat cs blend old = stepF pat (npSrcT n cs) blend old := rfl

theorem dbExpand_agree (n : ℕ) (pat : Pattern) (decay : ℚ) :
    ∀ (fuel cs : ℕ) (blend : ℚ) (g1 g2 : GridN Pixel),
      (∀ Y X, Y < cs → X < cs → g1 Y X = g2 Y X) →
      n ≤ cs * 2 ^ fuel →
      ∀ Y X, Y < n → X < n →
        expandF n pat decay (npSrcT n) fuel cs blend g1 Y X =
          dbExpand n pat decay fuel cs blend g2 Y X := by
  intro fuel
  induction fuel with
  | zero =>
    intro cs blend g1 g2 hagree hn Y X hY hX
    simp only [expandF, dbExpand]
    have hcs : n ≤ cs := by simpa using hn
    exact hagree Y X (by omega) (by omega)
  | succ fuel ih =>
    intro cs blend g1 g2 hagree hn Y X hY hX
    simp only [expandF, dbExpand]
    by_cases hlt : cs < n
    · rw [if_pos hlt, if_pos hlt]
      refine ih (cs * 2) (blend * decay) _ _ ?_ ?_ Y X hY hX
      · intro A B hA hB
        unfold maskF
        rw [if_pos ⟨hA, hB⟩, dbStep_eq]
        unfold stepF
        rw [hagree (A / 2) (B / 2) (by omega) (by omega)]
      · calc n ≤ cs * 2 ^ (fuel + 1) := hn
          _ = cs * 2 * 2 ^ fuel := by ring
    · rw [if_neg hlt, if_neg hlt]
      exact hagree Y X (by omega) (by omega)

/-- Claim C3: the in-place descending-order expansion of the source produces
exactly the final color grid of the double-buffered reference generator. -/
theorem spec_C3 (pat : Pattern) (it : ℕ) (decay : ℚ)
    (hv : validate_pattern pat = Except.ok ()) (hit : 1 ≤ it)
    (_hd0 : 0 ≤ decay) (_hd1 : decay ≤ 1) :
    generate_fractal it pat decay = some (generateDB it pat decay) := by
  rw [generate_eq it pat decay (fun y x => (validate_ok_bij pat hv y x).1) hit]
  refine congrArg some ?_
  unfold generateDB
  refine extract_congr _ _ _ ?_
  intro Y X hY hX
  refine congrArg Pixel.color ?_
  refine dbExpand_agree (2 ^ it) pat decay it 2 1 (seedGrid pat) (seedGrid pat)
    (fun _ _ _ _ => rfl) ?_ Y X hY hX
  have h2 : (0:ℕ) < 2 ^ it := Nat.pos_pow_of_pos it (by omega)
  omega

/-- Witness for C3: the base pattern, one iteration, decay 0. -/
theorem spec_C3_witness :
    validate_pattern create_base_pattern = Except.ok () ∧
      generate_fractal 1 create_base_pattern 0 = some (generateDB 1 create_base_pattern 0) :=
  ⟨by decide,
    spec_C3 create_base_pattern 1 0 (by decide) (by decide) (by decide) (by decide)⟩

theorem expandF_stop (n : ℕ) (pat : Pattern) (decay : ℚ)
    (npT : ℕ → Permutation → Permutation → Permutation)
    (fuel cs : ℕ) (blend : ℚ) (g : GridN Pixel) (h : ¬cs < n) :
    expandF n pat decay npT fuel cs blend g = g := by
  cases fuel with
  | zero => rfl
  | succ f =>
    simp only [expandF]
    rw [if_neg h]

theorem expandF_color_agree (n it : ℕ) (_hn : n = 2 ^ it) (pat : Pattern) (decay : ℚ) :
    ∀ (fuel j cs : ℕ) (blend : ℚ) (g : GridN Pixel), cs = 2 ^ j →
      ∀ Y X, (expandF n pat decay (npSrcT n) fuel cs blend g Y X).color =
        (expandF n pat decay npVarT fuel cs blend g Y X).color := by
  intro fuel
  induction fuel with
  | zero => intro j cs blend g hj Y X; rfl
  | succ fuel ih =>
    intro j cs blend g hj Y X
    simp only [expandF]
    by_cases hlt : cs < n
    · rw [if_pos hlt, if_pos hlt]
      by_cases hfin : cs * 2 < n
      · have hstep : stepF pat (npSrcT n cs) (blend * decay) g =
            stepF pat (npVarT cs) (blend * decay) g := by
          funext A B
          unfold stepF childPixel npSrcT npVarT
          rw [if_pos hfin]
        rw [hstep]
        exact ih (j + 1) (cs * 2) (blend * decay) _ (by rw [hj]; ring) Y X
      · rw [expandF_stop n pat decay (npSrcT n) fuel (cs * 2) (blend * decay) _ hfin,
          expandF_stop n pat decay npVarT fuel (cs * 2) (blend * decay) _ hfin]
        unfold maskF
        split_ifs with hin
        · rfl
        · rfl
    · rw [if_neg hlt, if_neg hlt]

/-- Claim C8: resetting the symmetry to identity on the final expansion step
has no effect on the color grid: the variant that always stores the composed
symmetry produces an identical output. -/
theorem spec_C8 (pat : Pattern) (it : ℕ) (decay : ℚ)
    (hv : validate_pattern pat = Except.ok ()) (hit : 1 ≤ it)
    (_hd0 : 0 ≤ decay) (_hd1 : decay ≤ 1) :
    generate_fractal_composeAll it pat decay = generate_fractal it pat decay := by
  have hpat : ∀ y x : Fin 2, (pat.pixels y x).perm.InRange :=
    fun y x => (validate_ok_bij pat hv y x).1
  rw [generate_eq it pat decay hpat hit, generate_composeAll_eq it pat decay hpat hit]
  refine congrArg some ?_
  refine extract_congr _ _ _ ?_
  intro Y X hY hX
  exact (expandF_color_agree (2 ^ it) it rfl pat decay it 1 2 1 (seedGrid pat)
    (by norm_num) Y X).symm

/-- Witness for C8: the base pattern, one iteration, decay 1. -/
theorem spec_C8_witness :
    validate_pattern create_base_pattern = Except.ok () ∧
      generate_fractal_composeAll 1 create_base_pattern 1 =
        generate_fractal 1 create_base_pattern 1 :=
  ⟨by decide,
    spec_C8 create_base_pattern 1 1 (by decide) (by decide) (by decide) (by decide)⟩

theorem writeT_map (f : α → β) (g : Grid2 α) (y x : ℕ) (v : α) :
    writeT (fun Y X => f (g Y X)) y x (f v) = fun Y X => f (writeT g y x v Y X) := by
  unfold writeT
  split_ifs with h
  · funext Y X
    unfold update2
    split_ifs with hc
    · rfl
    · rfl
  · rfl

theorem applyT_map (f : α → β) (p : Permutation) (g : Grid2 α) :
    applyT p (fun Y X => f (g Y X)) = fun Y X => f (applyT p g Y X) := by
  show writeT (writeT (writeT (writeT (fun _ _ => f (g 0 0))
      (p.mapping 0).1 (p.mapping 0).2 (f (g 0 0)))
      (p.mapping 1).1 (p.mapping 1).2 (f (g 0 1)))
      (p.mapping 2).1 (p.mapping 2).2 (f (g 1 0)))
      (p.mapping 3).1 (p.mapping 3).2 (f (g 1 1)) = _
  rw [show (fun (_ _ : Fin 2) => f (g 0 0)) =
      (fun Y X => f ((fun (_ _ : Fin 2) => g 0 0) Y X)) from rfl,
    writeT_map f _ _ _ (g 0 0), writeT_map f _ _ _ (g 0 1),
    writeT_map f _ _ _ (g 1 0), writeT_map f _ _ _ (g 1 1)]
  rfl

theorem seedQuadColor_eq (pat : Pattern) (y x d e : Fin 2) :
    seedQuadColor pat y x d e = (applyT (pat.pixels y x).perm pat.pixels d e).color := by
  unfold seedQuadColor
  rw [applyT_map Pixel.color (pat.pixels y x).perm pat.pixels]

theorem seedGrid_at (pat : Pattern) (y x : Fin 2) :
    seedGrid pat (y : ℕ) (x : ℕ) = pat.pixels y x := by
  fin_cases y <;> fin_cases x <;> rfl

theorem bfac_one (a : ℚ) : bfac (1 * 1) a = 1 := by
  unfold bfac
  ring

theorem lerp_one (c d : Color) : c.lerp d 1 = d := by
  cases d
  simp only [Color.lerp, Color.mk.injEq]
  refine ⟨by ring, by ring, by ring, by ring⟩

theorem extract_four (g : GridN Pixel) :
    extract 4 g =
      [[(g 0 0).color, (g 0 1).color, (g 0 2).color, (g 0 3).color],
       [(g 1 0).color, (g 1 1).color, (g 1 2).color, (g 1 3).color],
       [(g 2 0).color, (g 2 1).color, (g 2 2).color, (g 2 3).color],
       [(g 3 0).color, (g 3 1).color, (g 3 2).color, (g 3 3).color]] := rfl

/-- Claim C5: with two iterations and decay 1 on a validated pattern, the
output is the 4x4 grid in which quadrant `(y, x)` holds the seed pattern's
own colors permuted by that quadrant's seed symmetry, with no blending. -/
theorem spec_C5 (pat : Pattern) (hv : validate_pattern pat = Except.ok ()) :
    generate_fractal 2 pat 1 = some
      [[seedQuadColor pat 0 0 0 0, seedQuadColor pat 0 0 0 1,
        seedQuadColor pat 0 1 0 0, seedQuadColor pat 0 1 0 1],
       [seedQuadColor pat 0 0 1 0, seedQuadColor pat 0 0 1 1,
        seedQuadColor pat 0 1 1 0, seedQuadColor pat 0 1 1 1],
       [seedQuadColor pat 1 0 0 0, seedQuadColor pat 1 0 0 1,
        seedQuadColor pat 1 1 0 0, seedQuadColor pat 1 1 0 1],
       [seedQuadColor pat 1 0 1 0, seedQuadColor pat 1 0 1 1,
        seedQuadColor pat 1 1 1 0, seedQuadColor pat 1 1 1 1]] := by
  have hpat : ∀ y x : Fin 2, (pat.pixels y x).perm.InRange :=
    fun y x => (validate_ok_bij pat hv y x).1
  rw [generate_eq 2 pat 1 hpat (by omega)]
  refine congrArg some ?_
  have hexp : expandF (2 ^ 2) pat 1 (npSrcT (2 ^ 2)) 2 2 1 (seedGrid pat) =
      maskF 2 (stepF pat (npSrcT (2 ^ 2) 2) (1 * 1) (seedGrid pat)) (seedGrid pat) := by
    show expandF (2 ^ 2) pat 1 (npSrcT (2 ^ 2)) (1 + 1) 2 1 (seedGrid pat) = _
    simp only [expandF]
    rw [if_pos (by norm_num), if_neg (by norm_num)]
  rw [hexp]
  show extract 4
      (maskF 2 (stepF pat (npSrcT (2 ^ 2) 2) (1 * 1) (seedGrid pat)) (seedGrid pat)) = _
  set M := maskF 2 (stepF pat (npSrcT (2 ^ 2) 2) (1 * 1) (seedGrid pat)) (seedGrid pat)
    with hM
  have hm : ∀ y x d e : Fin 2,
      (M ((y : ℕ) * 2 + (d : ℕ)) ((x : ℕ) * 2 + (e : ℕ))).color =
        seedQuadColor pat y x d e := by
    intro y x d e
    have hy := y.isLt
    have hx := x.isLt
    have hd := d.isLt
    have he := e.isLt
    rw [hM]
    unfold maskF
    rw [if_pos ⟨by omega, by omega⟩,
      stepF_at pat (npSrcT (2 ^ 2) 2) (1 * 1) (seedGrid pat) (y : ℕ) (x : ℕ)
        (d : ℕ) (e : ℕ) hd he]
    unfold childPixel
    rw [seedGrid_at pat y x]
    simp only [Fin.eta]
    rw [bfac_one, lerp_one, seedQuadColor_eq]
  have e00 : (M 0 0).color = seedQuadColor pat 0 0 0 0 := hm 0 0 0 0
  have e01 : (M 0 1).color = seedQuadColor pat 0 0 0 1 := hm 0 0 0 1
  have e02 : (M 0 2).color = seedQuadColor pat 0 1 0 0 := hm 0 1 0 0
  have e03 : (M 0 3).color = seedQuadColor pat 0 1 0 1 := hm 0 1 0 1
  have e10 : (M 1 0).color = seedQuadColor pat 0 0 1 0 := hm 0 0 1 0
  have e11 : (M 1 1).color = seedQuadColor pat 0 0 1 1 := hm 0 0 1 1
  have e12 : (M 1 2).color = seedQuadColor pat 0 1 1 0 := hm 0 1 1 0
  have e13 : (M 1 3).color = seedQuadColor pat 0 1 1 1 := hm 0 1 1 1
  have e20 : (M 2 0).color = seedQuadColor pat 1 0 0 0 := hm 1 0 0 0
  have e21 : (M 2 1).color = seedQuadColor pat 1 0 0 1 := hm 1 0 0 1
  have e22 : (M 2 2).color = seedQuadColor pat 1 1 0 0 := hm 1 1 0 0
  have e23 : (M 2 3).color = seedQuadColor pat 1 1 0 1 := hm 1 1 0 1
  have e30 : (M 3 0).color = seedQuadColor pat 1 0 1 0 := hm 1 0 1 0
  have e31 : (M 3 1).color = seedQuadColor pat 1 0 1 1 := hm 1 0 1 1
  have e32 : (M 3 2).color = seedQuadColor pat 1 1 1 0 := hm 1 1 1 0
  have e33 : (M 3 3).color = seedQuadColor pat 1 1 1 1 := hm 1 1 1 1
  rw [extract_four, e00, e01, e02, e03, e10, e11, e12, e13, e20, e21, e22, e23,
    e30, e31, e32, e33]

/-- Witness for C5: the base pattern. -/
theorem spec_C5_witness :
    generate_fractal 2 create_base_pattern 1 = some
      [[seedQuadColor create_base_pattern 0 0 0 0, seedQuadColor create_base_pattern 0 0 0 1,
        seedQuadColor create_base_pattern 0 1 0 0, seedQuadColor create_base_pattern 0 1 0 1],
       [seedQuadColor create_base_pattern 0 0 1 0, seedQuadColor create_base_pattern 0 0 1 1,
        seedQuadColor create_base_pattern 0 1 1 0, seedQuadColor create_base_pattern 0 1 1 1],
       [seedQuadColor create_base_pattern 1 0 0 0, seedQuadColor create_base_pattern 1 0 0 1,
        seedQuadColor create_base_pattern 1 1 0 0, seedQuadColor create_base_pattern 1 1 0 1],
       [seedQuadColor create_base_pattern 1 0 1 0, seedQuadColor create_base_pattern 1 0 1 1,
        seedQuadColor create_base_pattern 1 1 1 0, seedQuadColor create_base_pattern 1 1 1 1]] :=
  spec_C5 create_base_pattern (by decide)

end Fractals
